import Mathlib

/-!
# Secret-word solver: shallow embedding and verification

This file embeds the secret-word guessing game of the repository
(`code.py` and `code_refactored.py`) into Lean and proves the spec's
claims about it.

Words are modelled as `List Char`.  The oracle (`Master`) is modelled by
its pure answer function: for a fixed secret the value returned by
`Master.guess` is deterministic, and the query counter is modelled by the
solvers recording the list of guesses they submit, in order.  The Python
`while` loops are embedded as fuel-indexed recursions; the entry points
supply fuel `|initial pool|`, which is proved sufficient
(`SolveResult.outOfFuel` is never reached with that fuel).
-/

abbrev Word := List Char

/-- `calculate_matches` (code_refactored.py, lines 138-143):
`sum(1 for c1, c2 in zip(word1, word2) if c1 == c2)`. -/
def calculate_matches (word1 word2 : Word) : Nat :=
  (word1.zip word2).countP (fun cc => cc.1 == cc.2)

/-- `get_matches` (code.py, lines 30-32), the helper nested in
`findSecretWord`: `sum(1 for i in range(len(word1)) if word1[i] == word2[i])`.
Out-of-range indexing (Python would raise) is modelled by `List.get?`,
whose `none` never equals a `some` character. -/
def get_matches (word1 word2 : Word) : Nat :=
  (List.range word1.length).countP (fun i => word1.get? i == word2.get? i)

namespace Master

/-- `Master.guess` of code.py (lines 10-16): returns `len(word)` when the
word is the secret, otherwise the positional match count computed by
`range`-indexing.  The `guess_count` side effect is modelled by the
solvers recording their guesses. -/
def guessPy (secret word : Word) : Nat :=
  if word = secret then word.length
  else (List.range word.length).countP (fun i => word.get? i == secret.get? i)

/-- `Master._calculate_matches` of code_refactored.py (lines 28-38);
`Master.guess` (lines 18-26) always returns this value: the cache maps a
word to the value computed on first query, which is deterministic, and
the query counter (incremented on every call, cached or not) is modelled
by the solvers recording their guesses. -/
def calculateMatches (secret word : Word) : Nat :=
  if word = secret then word.length
  else calculate_matches word secret

end Master

/-- Outcome of one solver run: the answer returned or the
`ValueError` raised (`code.py` returns `None` instead), together with the
list of words submitted to `Master.guess`, in order.  `outOfFuel` is an
artifact of embedding the `while` loop with fuel; the entry points are
proved never to produce it. -/
inductive SolveResult where
  | found : Word → List Word → SolveResult
  | exhausted : List Word → SolveResult
  | outOfFuel : SolveResult
deriving DecidableEq, Repr

/-- The guesses recorded in a result, `none` for `outOfFuel`. -/
def SolveResult.queries : SolveResult → Option (List Word)
  | .found _ qs => some qs
  | .exhausted qs => some qs
  | .outOfFuel => none

/-- The filtering step of `find_secret_word_simple`
(code_refactored.py, lines 162-163) and of code.py's `findSecretWord`
(line 50): `[word for word in candidates if calculate_matches(guess, word) == matches]`. -/
def filter_candidates_simple (candidates : List Word) (guess : Word) (matchCount : Nat) :
    List Word :=
  candidates.filter (fun word => calculate_matches guess word == matchCount)

/-- The filtering step of `find_secret_word_optimized` (lines 200-202)
and `find_secret_word_minimax` (lines 263-265):
`[word for word in candidates if word != guess and calculate_matches(guess, word) == matches]`. -/
def filter_candidates_excluding (candidates : List Word) (guess : Word) (matchCount : Nat) :
    List Word :=
  candidates.filter (fun word => word != guess && calculate_matches guess word == matchCount)

/-- `find_secret_word_simple` (code_refactored.py, lines 146-165). -/
def find_secret_word_simple (secret : Word) : Nat → List Word → List Word → SolveResult
  | _, [], qs => .exhausted qs
  | 0, _ :: _, _ => .outOfFuel
  | fuel + 1, guess :: rest, qs =>
    let matchCount := Master.calculateMatches secret guess
    if matchCount = guess.length then .found guess (qs ++ [guess])
    else
      find_secret_word_simple secret fuel
        (filter_candidates_simple (guess :: rest) guess matchCount) (qs ++ [guess])

/-- `pick_informative_word` (code_refactored.py, lines 207-221). -/
def pick_informative_word (candidates : List Word) : Word :=
  if candidates.length ≤ 3 then candidates.headD []
  else if candidates.length % 2 = 0 then candidates.headD []
  else candidates.getD (candidates.length / 2) []

/-- `find_secret_word_optimized` (code_refactored.py, lines 168-204). -/
def find_secret_word_optimized (secret : Word) : Nat → List Word → List Word → SolveResult
  | _, [], qs => .exhausted qs
  | 0, _ :: _, _ => .outOfFuel
  | fuel + 1, candidates@(first :: _), qs =>
    let guess := if candidates.length ≤ 3 then first else pick_informative_word candidates
    let matchCount := Master.calculateMatches secret guess
    if matchCount = guess.length then .found guess (qs ++ [guess])
    else
      find_secret_word_optimized secret fuel
        (filter_candidates_excluding candidates guess matchCount) (qs ++ [guess])

/-- The inner worst-case computation of `find_secret_word_minimax`
(code_refactored.py, lines 244-251): for a potential guess, the maximum,
over all simulated match counts, of the number of candidates that would
remain. -/
def worst_case_remaining (potential_guess : Word) (candidates : List Word) : Nat :=
  candidates.foldl
    (fun worst remaining_word =>
      max worst
        ((candidates.filter (fun word =>
          calculate_matches potential_guess word ==
            calculate_matches potential_guess remaining_word)).length))
    0

/-- The guess-selection scan of `find_secret_word_minimax`
(code_refactored.py, lines 237-257): fold over the first
`min(10, len(candidates))` candidates, keeping the first potential guess
whose worst case is strictly below the running minimum (initially
`len(candidates)`), then `guess = best_guess if best_guess else candidates[0]`
(a `None` or empty-string best guess falls back to the first candidate). -/
def minimax_best (candidates : List Word) : Option Word × Nat :=
  (candidates.take (min 10 candidates.length)).foldl
    (fun acc potential_guess =>
      if worst_case_remaining potential_guess candidates < acc.2 then
        (some potential_guess, worst_case_remaining potential_guess candidates)
      else acc)
    ((none : Option Word), candidates.length)

/-- `guess = best_guess if best_guess else candidates[0]`
(code_refactored.py, line 257): a `None` or empty-string (falsy) best
guess falls back to the first candidate. -/
def minimax_select (candidates : List Word) : Word :=
  match (minimax_best candidates).1 with
  | some g => if g.isEmpty then candidates.headD [] else g
  | none => candidates.headD []

/-- `find_secret_word_minimax` (code_refactored.py, lines 224-267).  A
singleton pool is returned directly, without querying the oracle. -/
def find_secret_word_minimax (secret : Word) : Nat → List Word → List Word → SolveResult
  | _, [], qs => .exhausted qs
  | 0, _ :: _, _ => .outOfFuel
  | fuel + 1, candidates@(first :: _), qs =>
    if candidates.length = 1 then .found first qs
    else
      let guess := minimax_select candidates
      let matchCount := Master.calculateMatches secret guess
      if matchCount = guess.length then .found guess (qs ++ [guess])
      else
        find_secret_word_minimax secret fuel
          (filter_candidates_excluding candidates guess matchCount) (qs ++ [guess])

/-- `findSecretWord` of code_refactored.py (lines 271-290): dispatch on
the strategy string through the `strategies` dict, with
`find_secret_word_optimized` as the `.get` default.  Fuel is the size of
the initial pool, proved sufficient below. -/
def findSecretWord (words : List Word) (secret : Word) (strategy : String) : SolveResult :=
  match strategy with
  | "simple" => find_secret_word_simple secret words.length words []
  | "optimized" => find_secret_word_optimized secret words.length words []
  | "minimax" => find_secret_word_minimax secret words.length words []
  | _ => find_secret_word_optimized secret words.length words []

/-- Calling `findSecretWord` without a strategy argument: the Python
default parameter value is `strategy: str = "optimized"`
(code_refactored.py, line 271). -/
def findSecretWord_default (words : List Word) (secret : Word) : SolveResult :=
  findSecretWord words secret "optimized"

/-- `findSecretWord` of code.py (lines 19-52): the simple strategy,
returning `None` (here `none`) when the candidate pool empties.  The
fuel-exhaustion artifact also returns `none`; the fuel `|words|` supplied
by `findSecretWord_py` is proved sufficient. -/
def findSecretWord_py_loop (secret : Word) : Nat → List Word → Option Word
  | _, [] => none
  | 0, _ :: _ => none
  | fuel + 1, guess :: rest =>
    let matchCount := Master.guessPy secret guess
    if matchCount = guess.length then some guess
    else
      findSecretWord_py_loop secret fuel
        ((guess :: rest).filter (fun word => get_matches guess word == matchCount))

/-- Entry point of code.py's `findSecretWord`. -/
def findSecretWord_py (words : List Word) (secret : Word) : Option Word :=
  findSecretWord_py_loop secret words.length words

/-- Whether a run ended in the `ExhaustedCandidates` failure
(the `raise ValueError` of the refactored solvers). -/
def SolveResult.isExhausted : SolveResult → Bool
  | .exhausted _ => true
  | _ => false

/-- One iteration of the `while candidates:` body of
`find_secret_word_simple` (code_refactored.py, lines 153-163) acting on
the candidate pool: guess the first candidate, observe `Master.guess`,
and filter — the pool is left unchanged on a terminal (full-score)
iteration, where the loop returns instead of filtering. -/
def simple_round (secret : Word) (candidates : List Word) : List Word :=
  match candidates with
  | [] => []
  | guess :: rest =>
    let matchCount := Master.calculateMatches secret guess
    if matchCount = guess.length then guess :: rest
    else filter_candidates_simple (guess :: rest) guess matchCount

/-- One iteration of the `while candidates:` body of
`find_secret_word_optimized` (code_refactored.py, lines 181-202) acting
on the candidate pool. -/
def optimized_round (secret : Word) (candidates : List Word) : List Word :=
  match candidates with
  | [] => []
  | first :: rest =>
    let guess :=
      if (first :: rest).length ≤ 3 then first
      else pick_informative_word (first :: rest)
    let matchCount := Master.calculateMatches secret guess
    if matchCount = guess.length then first :: rest
    else filter_candidates_excluding (first :: rest) guess matchCount

/-- One iteration of the `while candidates:` body of
`find_secret_word_minimax` (code_refactored.py, lines 233-265) acting on
the candidate pool; a singleton pool is returned as-is (the loop returns
its element). -/
def minimax_round (secret : Word) (candidates : List Word) : List Word :=
  match candidates with
  | [] => []
  | first :: rest =>
    if (first :: rest).length = 1 then first :: rest
    else
      let guess := minimax_select (first :: rest)
      let matchCount := Master.calculateMatches secret guess
      if matchCount = guess.length then first :: rest
      else filter_candidates_excluding (first :: rest) guess matchCount

/-- The filtering round of the strategy `findSecretWord` dispatches to
(same dispatch as `findSecretWord`, code_refactored.py lines 283-289). -/
def solver_round (strategy : String) (secret : Word) (candidates : List Word) : List Word :=
  match strategy with
  | "simple" => simple_round secret candidates
  | "optimized" => optimized_round secret candidates
  | "minimax" => minimax_round secret candidates
  | _ => optimized_round secret candidates

/-- Spec §4.3's description of the Minimax selection, as a definition of
its own to compare with `minimax_select`: scan the restricted set left to
right keeping the current best candidate, replacing it only when a
strictly smaller worst case appears, so the earliest minimizer wins
ties. -/
def earliest_min_by (f : Word → Nat) : Word → List Word → Word
  | best, [] => best
  | best, x :: xs =>
    if f x < f best then earliest_min_by f x xs else earliest_min_by f best xs

/-- Spec §4.3's Minimax selection over a pool of at least two candidates:
the earliest worst-case minimizer among the first
`min(10, len(pool))` candidates. -/
def minimax_spec_pick (candidates : List Word) : Word :=
  match candidates.take (min 10 candidates.length) with
  | [] => candidates.headD []
  | x :: xs => earliest_min_by (fun g => worst_case_remaining g candidates) x xs

/-! ## Basic facts about the match scorer -/

theorem calculate_matches_nil_left (b : Word) : calculate_matches [] b = 0 := by
  simp [calculate_matches]

theorem calculate_matches_nil_right (a : Word) : calculate_matches a [] = 0 := by
  simp [calculate_matches]

theorem calculate_matches_cons (x y : Char) (xs ys : Word) :
    calculate_matches (x :: xs) (y :: ys) =
      calculate_matches xs ys + if x = y then 1 else 0 := by
  simp [calculate_matches, List.countP_cons]

theorem calculate_matches_le_left (a b : Word) : calculate_matches a b ≤ a.length :=
  le_trans (List.countP_le_length _) (by simp [List.length_zip])

theorem calculate_matches_self (a : Word) : calculate_matches a a = a.length := by
  induction a with
  | nil => simp [calculate_matches]
  | cons x xs ih => simp [calculate_matches_cons, ih]

theorem eq_of_calculate_matches_eq_length (a b : Word) (hlen : a.length = b.length)
    (hm : calculate_matches a b = a.length) : a = b := by
  induction a generalizing b with
  | nil =>
    cases b with
    | nil => rfl
    | cons y ys => simp at hlen
  | cons x xs ih =>
    cases b with
    | nil => simp at hlen
    | cons y ys =>
      simp only [List.length_cons, Nat.succ.injEq] at hlen
      rw [calculate_matches_cons] at hm
      by_cases hxy : x = y
      · subst hxy
        rw [if_pos rfl] at hm
        simp only [List.length_cons] at hm
        have := ih ys hlen (by omega)
        rw [this]
      · simp only [if_neg hxy, Nat.add_zero, List.length_cons] at hm
        have := calculate_matches_le_left xs ys
        omega

theorem Master.calculateMatches_eq (secret word : Word) :
    Master.calculateMatches secret word = calculate_matches word secret := by
  unfold Master.calculateMatches
  by_cases h : word = secret
  · subst h
    simp [calculate_matches_self]
  · simp [h]

theorem Master.calculateMatches_full_iff (secret word : Word)
    (hlen : word.length = secret.length) :
    Master.calculateMatches secret word = word.length ↔ word = secret := by
  constructor
  · intro h
    rw [Master.calculateMatches_eq] at h
    exact eq_of_calculate_matches_eq_length word secret hlen h
  · intro h
    subst h
    simp [Master.calculateMatches]

theorem range_countP_eq_calculate_matches (a b : Word) :
    (List.range a.length).countP (fun i => a.get? i == b.get? i) = calculate_matches a b := by
  induction a generalizing b with
  | nil => simp [calculate_matches]
  | cons x xs ih =>
    cases b with
    | nil =>
      rw [calculate_matches_nil_right]
      apply List.countP_eq_zero.2
      intro i hi
      rw [List.mem_range] at hi
      rw [List.get?_eq_get hi]
      simp
    | cons y ys =>
      rw [List.length_cons, List.range_succ_eq_map, List.countP_cons, List.countP_map,
        calculate_matches_cons, ← ih ys]
      have hcomp :
          ((fun i => (x :: xs).get? i == (y :: ys).get? i) ∘ Nat.succ) =
            (fun i => xs.get? i == ys.get? i) := by
        funext i
        simp
      rw [hcomp]
      simp [beq_iff_eq]

theorem get_matches_eq (a b : Word) : get_matches a b = calculate_matches a b :=
  range_countP_eq_calculate_matches a b

theorem Master.guessPy_eq (secret word : Word) :
    Master.guessPy secret word = Master.calculateMatches secret word := by
  unfold Master.guessPy Master.calculateMatches
  by_cases h : word = secret
  · simp [h]
  · simp only [if_neg h]
    exact range_countP_eq_calculate_matches word secret

/-! ## Facts about the filtering steps -/

theorem mem_filter_candidates_simple (pool : List Word) (guess w : Word) (m : Nat) :
    w ∈ filter_candidates_simple pool guess m ↔
      w ∈ pool ∧ calculate_matches guess w = m := by
  simp [filter_candidates_simple, List.mem_filter]

theorem mem_filter_candidates_excluding (pool : List Word) (guess w : Word) (m : Nat) :
    w ∈ filter_candidates_excluding pool guess m ↔
      w ∈ pool ∧ w ≠ guess ∧ calculate_matches guess w = m := by
  simp [filter_candidates_excluding, List.mem_filter, bne_iff_ne, and_assoc]

theorem filter_candidates_simple_sublist (pool : List Word) (guess : Word) (m : Nat) :
    List.Sublist (filter_candidates_simple pool guess m) pool :=
  List.filter_sublist pool

theorem filter_candidates_excluding_sublist (pool : List Word) (guess : Word) (m : Nat) :
    List.Sublist (filter_candidates_excluding pool guess m) pool :=
  List.filter_sublist pool

/-- The simple filter drops the guess itself when the score is not full
length, so each non-terminal simple round strictly shrinks the pool. -/
theorem length_filter_candidates_simple_cons (guess : Word) (rest : List Word) (m : Nat)
    (hm : m ≠ guess.length) :
    (filter_candidates_simple (guess :: rest) guess m).length ≤ rest.length := by
  unfold filter_candidates_simple
  rw [List.filter_cons]
  have : (calculate_matches guess guess == m) = false := by
    simp [calculate_matches_self]
    omega
  rw [if_neg (by simp [this])]
  exact List.length_filter_le _ rest

/-- The excluding filter removes at least its guess whenever the guess is
in the pool. -/
theorem length_filter_candidates_excluding_lt (pool : List Word) (guess : Word) (m : Nat)
    (hg : guess ∈ pool) :
    (filter_candidates_excluding pool guess m).length < pool.length := by
  unfold filter_candidates_excluding
  induction pool with
  | nil => cases hg
  | cons x xs ih =>
    rw [List.filter_cons]
    by_cases hx : x = guess
    · subst hx
      rw [if_neg (by simp)]
      simp only [List.length_cons]
      exact Nat.lt_succ_of_le (List.length_filter_le _ xs)
    · have hg' : guess ∈ xs := by
        cases hg with
        | head => exact absurd rfl hx
        | tail _ h => exact h
      by_cases hpx : (x != guess && calculate_matches guess x == m) = true
      · rw [if_pos hpx]
        simpa using Nat.succ_lt_succ (ih hg')
      · rw [if_neg hpx]
        exact Nat.lt_succ_of_lt (ih hg')

/-- The true secret always survives the simple filter of a round that
observed its own score. -/
theorem secret_mem_filter_candidates_simple (pool : List Word) (secret guess : Word)
    (hmem : secret ∈ pool) :
    secret ∈ filter_candidates_simple pool guess (Master.calculateMatches secret guess) := by
  rw [mem_filter_candidates_simple]
  exact ⟨hmem, (Master.calculateMatches_eq secret guess).symm⟩

/-- The true secret always survives the excluding filter of a non-terminal
round (one whose observed score is below the guess's length). -/
theorem secret_mem_filter_candidates_excluding (pool : List Word) (secret guess : Word)
    (hmem : secret ∈ pool)
    (hnt : Master.calculateMatches secret guess ≠ guess.length) :
    secret ∈ filter_candidates_excluding pool guess (Master.calculateMatches secret guess) := by
  rw [mem_filter_candidates_excluding]
  refine ⟨hmem, ?_, (Master.calculateMatches_eq secret guess).symm⟩
  intro h
  subst h
  exact hnt (by simp [Master.calculateMatches])

/-! ## The guess selectors pick members of the pool -/

theorem headD_mem_of_ne_nil (l : List Word) (h : l ≠ []) : l.headD [] ∈ l := by
  cases l with
  | nil => exact absurd rfl h
  | cons x xs => exact List.mem_cons_self x xs

theorem pick_informative_word_mem (candidates : List Word) (h : candidates ≠ []) :
    pick_informative_word candidates ∈ candidates := by
  unfold pick_informative_word
  have hpos : 0 < candidates.length := List.length_pos.2 h
  by_cases h3 : candidates.length ≤ 3
  · rw [if_pos h3]
    exact headD_mem_of_ne_nil _ h
  · rw [if_neg h3]
    by_cases he : candidates.length % 2 = 0
    · rw [if_pos he]
      exact headD_mem_of_ne_nil _ h
    · rw [if_neg he]
      have hlt : candidates.length / 2 < candidates.length :=
        Nat.div_lt_self hpos one_lt_two
      rw [List.getD_eq_get?, List.get?_eq_get hlt, Option.getD_some]
      exact List.get_mem candidates _ hlt

theorem minimax_fold_shape (f : Word → Nat) (S : List Word) :
    ∀ (l : List Word) (acc : Option Word × Nat),
      (acc.1 = none ∨ ∃ g ∈ S, acc.1 = some g) → (∀ x ∈ l, x ∈ S) →
      ((l.foldl (fun acc x => if f x < acc.2 then (some x, f x) else acc) acc).1 = none ∨
        ∃ g ∈ S,
          (l.foldl (fun acc x => if f x < acc.2 then (some x, f x) else acc) acc).1 = some g) := by
  intro l
  induction l with
  | nil => intro acc hacc _; exact hacc
  | cons x xs ih =>
    intro acc hacc hsub
    rw [List.foldl_cons]
    apply ih
    · by_cases hx : f x < acc.2
      · rw [if_pos hx]
        exact Or.inr ⟨x, hsub x (List.mem_cons_self _ _), rfl⟩
      · rw [if_neg hx]
        exact hacc
    · intro y hy
      exact hsub y (List.mem_cons_of_mem _ hy)

theorem minimax_best_shape (candidates : List Word) :
    (minimax_best candidates).1 = none ∨
      ∃ g ∈ candidates, (minimax_best candidates).1 = some g :=
  minimax_fold_shape (fun pg => worst_case_remaining pg candidates) candidates
    (candidates.take (min 10 candidates.length)) ((none : Option Word), candidates.length)
    (Or.inl rfl)
    (fun x hx => (List.take_sublist _ _).subset hx)

theorem minimax_select_mem (candidates : List Word) (h : candidates ≠ []) :
    minimax_select candidates ∈ candidates := by
  unfold minimax_select
  rcases minimax_best_shape candidates with hnone | ⟨g, hgmem, hsome⟩
  · rw [hnone]
    exact headD_mem_of_ne_nil _ h
  · rw [hsome]
    show (if g.isEmpty = true then candidates.headD [] else g) ∈ candidates
    by_cases hempty : g.isEmpty
    · rw [if_pos hempty]
      exact headD_mem_of_ne_nil _ h
    · rw [if_neg hempty]
      exact hgmem

/-! ## Unfolding equations for the solver loops -/

theorem find_secret_word_simple_eq (secret guess : Word) (rest qs : List Word) (fuel : Nat) :
    find_secret_word_simple secret (fuel + 1) (guess :: rest) qs =
      if Master.calculateMatches secret guess = guess.length then
        .found guess (qs ++ [guess])
      else
        find_secret_word_simple secret fuel
          (filter_candidates_simple (guess :: rest) guess
            (Master.calculateMatches secret guess)) (qs ++ [guess]) := rfl

theorem find_secret_word_optimized_eq (secret first : Word) (rest qs : List Word)
    (fuel : Nat) (guess : Word)
    (hguess :
      guess =
        if (first :: rest).length ≤ 3 then first
        else pick_informative_word (first :: rest)) :
    find_secret_word_optimized secret (fuel + 1) (first :: rest) qs =
      if Master.calculateMatches secret guess = guess.length then
        .found guess (qs ++ [guess])
      else
        find_secret_word_optimized secret fuel
          (filter_candidates_excluding (first :: rest) guess
            (Master.calculateMatches secret guess)) (qs ++ [guess]) := by
  subst hguess
  rfl

theorem find_secret_word_minimax_singleton (secret w : Word) (qs : List Word) (fuel : Nat) :
    find_secret_word_minimax secret (fuel + 1) [w] qs = .found w qs := rfl

theorem find_secret_word_minimax_eq (secret first : Word) (rest qs : List Word)
    (fuel : Nat) (h1 : (first :: rest).length ≠ 1) (guess : Word)
    (hguess : guess = minimax_select (first :: rest)) :
    find_secret_word_minimax secret (fuel + 1) (first :: rest) qs =
      if Master.calculateMatches secret guess = guess.length then
        .found guess (qs ++ [guess])
      else
        find_secret_word_minimax secret fuel
          (filter_candidates_excluding (first :: rest) guess
            (Master.calculateMatches secret guess)) (qs ++ [guess]) := by
  subst hguess
  show (if (first :: rest).length = 1 then SolveResult.found first qs else _) = _
  rw [if_neg h1]

/-! ## Solver-loop inductions: correctness, exhaustion, query bounds -/

theorem find_secret_word_simple_finds (secret : Word) :
    ∀ (fuel : Nat) (candidates qs : List Word), secret ∈ candidates →
      candidates.length ≤ fuel →
      (∀ w ∈ candidates, w.length = secret.length) →
      ∃ qs', find_secret_word_simple secret fuel candidates qs = .found secret qs' := by
  intro fuel
  induction fuel with
  | zero =>
    intro candidates qs hmem hfuel _
    rw [List.length_eq_zero.1 (Nat.le_zero.1 hfuel)] at hmem
    cases hmem
  | succ fuel ih =>
    intro candidates qs hmem hfuel hlens
    cases candidates with
    | nil => cases hmem
    | cons guess rest =>
      rw [find_secret_word_simple_eq]
      by_cases hterm : Master.calculateMatches secret guess = guess.length
      · rw [if_pos hterm]
        have hg : guess = secret :=
          (Master.calculateMatches_full_iff secret guess
            (hlens guess (List.mem_cons_self _ _))).1 hterm
        exact ⟨qs ++ [guess], by rw [hg]⟩
      · rw [if_neg hterm]
        apply ih
        · exact secret_mem_filter_candidates_simple _ _ _ hmem
        · have := length_filter_candidates_simple_cons guess rest
            (Master.calculateMatches secret guess) hterm
          simp only [List.length_cons] at hfuel
          omega
        · intro w hw
          exact hlens w ((filter_candidates_simple_sublist _ _ _).subset hw)

theorem find_secret_word_optimized_finds (secret : Word) :
    ∀ (fuel : Nat) (candidates qs : List Word), secret ∈ candidates →
      candidates.length ≤ fuel →
      (∀ w ∈ candidates, w.length = secret.length) →
      ∃ qs', find_secret_word_optimized secret fuel candidates qs = .found secret qs' := by
  intro fuel
  induction fuel with
  | zero =>
    intro candidates qs hmem hfuel _
    rw [List.length_eq_zero.1 (Nat.le_zero.1 hfuel)] at hmem
    cases hmem
  | succ fuel ih =>
    intro candidates qs hmem hfuel hlens
    cases candidates with
    | nil => cases hmem
    | cons first rest =>
      rw [find_secret_word_optimized_eq secret first rest qs fuel _ rfl]
      have hgmem :
          (if (first :: rest).length ≤ 3 then first
            else pick_informative_word (first :: rest)) ∈ first :: rest := by
        by_cases h3 : (first :: rest).length ≤ 3
        · rw [if_pos h3]; exact List.mem_cons_self _ _
        · rw [if_neg h3]; exact pick_informative_word_mem _ (by simp)
      set guess :=
        if (first :: rest).length ≤ 3 then first
        else pick_informative_word (first :: rest) with hguessdef
      by_cases hterm : Master.calculateMatches secret guess = guess.length
      · rw [if_pos hterm]
        have hg : guess = secret :=
          (Master.calculateMatches_full_iff secret guess (hlens guess hgmem)).1 hterm
        exact ⟨qs ++ [guess], by rw [hg]⟩
      · rw [if_neg hterm]
        apply ih
        · exact secret_mem_filter_candidates_excluding _ _ _ hmem hterm
        · have := length_filter_candidates_excluding_lt (first :: rest) guess
            (Master.calculateMatches secret guess) hgmem
          omega
        · intro w hw
          exact hlens w ((filter_candidates_excluding_sublist _ _ _).subset hw)

theorem find_secret_word_minimax_finds (secret : Word) :
    ∀ (fuel : Nat) (candidates qs : List Word), secret ∈ candidates →
      candidates.length ≤ fuel →
      (∀ w ∈ candidates, w.length = secret.length) →
      ∃ qs', find_secret_word_minimax secret fuel candidates qs = .found secret qs' := by
  intro fuel
  induction fuel with
  | zero =>
    intro candidates qs hmem hfuel _
    rw [List.length_eq_zero.1 (Nat.le_zero.1 hfuel)] at hmem
    cases hmem
  | succ fuel ih =>
    intro candidates qs hmem hfuel hlens
    cases candidates with
    | nil => cases hmem
    | cons first rest =>
      by_cases h1 : (first :: rest).length = 1
      · have hrest : rest = [] := by
          simp only [List.length_cons] at h1
          exact List.length_eq_zero.1 (by omega)
        subst hrest
        have hfirst : first = secret := by
          cases hmem with
          | head => rfl
          | tail _ h => cases h
        rw [find_secret_word_minimax_singleton, hfirst]
        exact ⟨qs, rfl⟩
      · rw [find_secret_word_minimax_eq secret first rest qs fuel h1 _ rfl]
        have hgmem : minimax_select (first :: rest) ∈ first :: rest :=
          minimax_select_mem _ (by simp)
        set guess := minimax_select (first :: rest) with hguessdef
        by_cases hterm : Master.calculateMatches secret guess = guess.length
        · rw [if_pos hterm]
          have hg : guess = secret :=
            (Master.calculateMatches_full_iff secret guess (hlens guess hgmem)).1 hterm
          exact ⟨qs ++ [guess], by rw [hg]⟩
        · rw [if_neg hterm]
          apply ih
          · exact secret_mem_filter_candidates_excluding _ _ _ hmem hterm
          · have := length_filter_candidates_excluding_lt (first :: rest) guess
              (Master.calculateMatches secret guess) hgmem
            omega
          · intro w hw
            exact hlens w ((filter_candidates_excluding_sublist _ _ _).subset hw)

theorem find_secret_word_simple_queries (secret : Word) :
    ∀ (fuel : Nat) (candidates qs : List Word), candidates.length ≤ fuel →
      ∃ qs', (find_secret_word_simple secret fuel candidates qs).queries = some qs' ∧
        qs'.length ≤ qs.length + candidates.length := by
  intro fuel
  induction fuel with
  | zero =>
    intro candidates qs hfuel
    rw [List.length_eq_zero.1 (Nat.le_zero.1 hfuel)]
    exact ⟨qs, rfl, by simp⟩
  | succ fuel ih =>
    intro candidates qs hfuel
    cases candidates with
    | nil => exact ⟨qs, rfl, by simp⟩
    | cons guess rest =>
      rw [find_secret_word_simple_eq]
      by_cases hterm : Master.calculateMatches secret guess = guess.length
      · rw [if_pos hterm]
        exact ⟨qs ++ [guess], rfl, by simp [List.length_cons]⟩
      · rw [if_neg hterm]
        have hlt := length_filter_candidates_simple_cons guess rest
          (Master.calculateMatches secret guess) hterm
        obtain ⟨qs', hq, hle⟩ := ih
          (filter_candidates_simple (guess :: rest) guess
            (Master.calculateMatches secret guess)) (qs ++ [guess])
          (by simp only [List.length_cons] at hfuel; omega)
        refine ⟨qs', hq, ?_⟩
        simp only [List.length_append, List.length_cons, List.length_nil] at hle ⊢
        omega

theorem find_secret_word_optimized_queries (secret : Word) :
    ∀ (fuel : Nat) (candidates qs : List Word), candidates.length ≤ fuel →
      ∃ qs', (find_secret_word_optimized secret fuel candidates qs).queries = some qs' ∧
        qs'.length ≤ qs.length + candidates.length := by
  intro fuel
  induction fuel with
  | zero =>
    intro candidates qs hfuel
    rw [List.length_eq_zero.1 (Nat.le_zero.1 hfuel)]
    exact ⟨qs, rfl, by simp⟩
  | succ fuel ih =>
    intro candidates qs hfuel
    cases candidates with
    | nil => exact ⟨qs, rfl, by simp⟩
    | cons first rest =>
      rw [find_secret_word_optimized_eq secret first rest qs fuel _ rfl]
      have hgmem :
          (if (first :: rest).length ≤ 3 then first
            else pick_informative_word (first :: rest)) ∈ first :: rest := by
        by_cases h3 : (first :: rest).length ≤ 3
        · rw [if_pos h3]; exact List.mem_cons_self _ _
        · rw [if_neg h3]; exact pick_informative_word_mem _ (by simp)
      set guess :=
        if (first :: rest).length ≤ 3 then first
        else pick_informative_word (first :: rest) with hguessdef
      by_cases hterm : Master.calculateMatches secret guess = guess.length
      · rw [if_pos hterm]
        exact ⟨qs ++ [guess], rfl, by simp [List.length_cons]⟩
      · rw [if_neg hterm]
        have hlt := length_filter_candidates_excluding_lt (first :: rest) guess
          (Master.calculateMatches secret guess) hgmem
        obtain ⟨qs', hq, hle⟩ := ih
          (filter_candidates_excluding (first :: rest) guess
            (Master.calculateMatches secret guess)) (qs ++ [guess])
          (by omega)
        refine ⟨qs', hq, ?_⟩
        simp only [List.length_append, List.length_cons, List.length_nil] at hle hlt ⊢
        omega

theorem find_secret_word_minimax_queries (secret : Word) :
    ∀ (fuel : Nat) (candidates qs : List Word), candidates.length ≤ fuel →
      ∃ qs', (find_secret_word_minimax secret fuel candidates qs).queries = some qs' ∧
        qs'.length ≤ qs.length + candidates.length := by
  intro fuel
  induction fuel with
  | zero =>
    intro candidates qs hfuel
    rw [List.length_eq_zero.1 (Nat.le_zero.1 hfuel)]
    exact ⟨qs, rfl, by simp⟩
  | succ fuel ih =>
    intro candidates qs hfuel
    cases candidates with
    | nil => exact ⟨qs, rfl, by simp⟩
    | cons first rest =>
      by_cases h1 : (first :: rest).length = 1
      · have hrest : rest = [] := by
          simp only [List.length_cons] at h1
          exact List.length_eq_zero.1 (by omega)
        subst hrest
        rw [find_secret_word_minimax_singleton]
        exact ⟨qs, rfl, by simp⟩
      · rw [find_secret_word_minimax_eq secret first rest qs fuel h1 _ rfl]
        have hgmem : minimax_select (first :: rest) ∈ first :: rest :=
          minimax_select_mem _ (by simp)
        set guess := minimax_select (first :: rest) with hguessdef
        by_cases hterm : Master.calculateMatches secret guess = guess.length
        · rw [if_pos hterm]
          exact ⟨qs ++ [guess], rfl, by simp [List.length_cons]⟩
        · rw [if_neg hterm]
          have hlt := length_filter_candidates_excluding_lt (first :: rest) guess
            (Master.calculateMatches secret guess) hgmem
          obtain ⟨qs', hq, hle⟩ := ih
            (filter_candidates_excluding (first :: rest) guess
              (Master.calculateMatches secret guess)) (qs ++ [guess])
            (by omega)
          refine ⟨qs', hq, ?_⟩
          simp only [List.length_append, List.length_cons, List.length_nil] at hle hlt ⊢
          omega

/-- A guess drawn from a pool of words of the secret's length that does
not contain the secret never scores full length. -/
theorem calculateMatches_ne_length_of_not_mem (secret guess : Word) (candidates : List Word)
    (hmem : guess ∈ candidates) (habsent : secret ∉ candidates)
    (hlens : ∀ w ∈ candidates, w.length = secret.length) :
    Master.calculateMatches secret guess ≠ guess.length := by
  intro h
  have hg : guess = secret :=
    (Master.calculateMatches_full_iff secret guess (hlens guess hmem)).1 h
  exact habsent (hg ▸ hmem)

theorem find_secret_word_simple_exhausts (secret : Word) :
    ∀ (fuel : Nat) (candidates qs : List Word), secret ∉ candidates →
      candidates.length ≤ fuel →
      (∀ w ∈ candidates, w.length = secret.length) →
      ∃ qs', find_secret_word_simple secret fuel candidates qs = .exhausted qs' := by
  intro fuel
  induction fuel with
  | zero =>
    intro candidates qs _ hfuel _
    rw [List.length_eq_zero.1 (Nat.le_zero.1 hfuel)]
    exact ⟨qs, rfl⟩
  | succ fuel ih =>
    intro candidates qs habsent hfuel hlens
    cases candidates with
    | nil => exact ⟨qs, rfl⟩
    | cons guess rest =>
      rw [find_secret_word_simple_eq]
      have hterm : Master.calculateMatches secret guess ≠ guess.length :=
        calculateMatches_ne_length_of_not_mem secret guess (guess :: rest)
          (List.mem_cons_self _ _) habsent hlens
      rw [if_neg hterm]
      apply ih
      · intro hmem
        exact habsent ((filter_candidates_simple_sublist _ _ _).subset hmem)
      · have := length_filter_candidates_simple_cons guess rest
          (Master.calculateMatches secret guess) hterm
        simp only [List.length_cons] at hfuel
        omega
      · intro w hw
        exact hlens w ((filter_candidates_simple_sublist _ _ _).subset hw)

theorem find_secret_word_optimized_exhausts (secret : Word) :
    ∀ (fuel : Nat) (candidates qs : List Word), secret ∉ candidates →
      candidates.length ≤ fuel →
      (∀ w ∈ candidates, w.length = secret.length) →
      ∃ qs', find_secret_word_optimized secret fuel candidates qs = .exhausted qs' := by
  intro fuel
  induction fuel with
  | zero =>
    intro candidates qs _ hfuel _
    rw [List.length_eq_zero.1 (Nat.le_zero.1 hfuel)]
    exact ⟨qs, rfl⟩
  | succ fuel ih =>
    intro candidates qs habsent hfuel hlens
    cases candidates with
    | nil => exact ⟨qs, rfl⟩
    | cons first rest =>
      rw [find_secret_word_optimized_eq secret first rest qs fuel _ rfl]
      have hgmem :
          (if (first :: rest).length ≤ 3 then first
            else pick_informative_word (first :: rest)) ∈ first :: rest := by
        by_cases h3 : (first :: rest).length ≤ 3
        · rw [if_pos h3]; exact List.mem_cons_self _ _
        · rw [if_neg h3]; exact pick_informative_word_mem _ (by simp)
      set guess :=
        if (first :: rest).length ≤ 3 then first
        else pick_informative_word (first :: rest) with hguessdef
      have hterm : Master.calculateMatches secret guess ≠ guess.length :=
        calculateMatches_ne_length_of_not_mem secret guess (first :: rest)
          hgmem habsent hlens
      rw [if_neg hterm]
      have hlt := length_filter_candidates_excluding_lt (first :: rest) guess
        (Master.calculateMatches secret guess) hgmem
      apply ih
      · intro hmem
        exact habsent ((filter_candidates_excluding_sublist _ _ _).subset hmem)
      · omega
      · intro w hw
        exact hlens w ((filter_candidates_excluding_sublist _ _ _).subset hw)

/-! ## code.py's findSecretWord agrees with the simple strategy -/

theorem py_filter_eq (candidates : List Word) (guess : Word) (m : Nat) :
    candidates.filter (fun word => get_matches guess word == m) =
      filter_candidates_simple candidates guess m := by
  unfold filter_candidates_simple
  apply List.filter_congr
  intro w _
  rw [get_matches_eq]

theorem findSecretWord_py_loop_eq (secret guess : Word) (rest : List Word) (fuel : Nat) :
    findSecretWord_py_loop secret (fuel + 1) (guess :: rest) =
      if Master.guessPy secret guess = guess.length then some guess
      else
        findSecretWord_py_loop secret fuel
          ((guess :: rest).filter
            (fun word => get_matches guess word == Master.guessPy secret guess)) := rfl

theorem findSecretWord_py_loop_finds (secret : Word) :
    ∀ (fuel : Nat) (candidates : List Word), secret ∈ candidates →
      candidates.length ≤ fuel →
      (∀ w ∈ candidates, w.length = secret.length) →
      findSecretWord_py_loop secret fuel candidates = some secret := by
  intro fuel
  induction fuel with
  | zero =>
    intro candidates hmem hfuel _
    rw [List.length_eq_zero.1 (Nat.le_zero.1 hfuel)] at hmem
    cases hmem
  | succ fuel ih =>
    intro candidates hmem hfuel hlens
    cases candidates with
    | nil => cases hmem
    | cons guess rest =>
      rw [findSecretWord_py_loop_eq, Master.guessPy_eq, py_filter_eq]
      by_cases hterm : Master.calculateMatches secret guess = guess.length
      · rw [if_pos hterm]
        have hg : guess = secret :=
          (Master.calculateMatches_full_iff secret guess
            (hlens guess (List.mem_cons_self _ _))).1 hterm
        rw [hg]
      · rw [if_neg hterm]
        apply ih
        · exact secret_mem_filter_candidates_simple _ _ _ hmem
        · have := length_filter_candidates_simple_cons guess rest
            (Master.calculateMatches secret guess) hterm
          simp only [List.length_cons] at hfuel
          omega
        · intro w hw
          exact hlens w ((filter_candidates_simple_sublist _ _ _).subset hw)

/-! ## Each filtering round keeps the secret -/

theorem simple_round_preserves (secret : Word) (candidates : List Word)
    (hmem : secret ∈ candidates) : secret ∈ simple_round secret candidates := by
  cases candidates with
  | nil => cases hmem
  | cons guess rest =>
    show secret ∈
      (if Master.calculateMatches secret guess = guess.length then guess :: rest
       else filter_candidates_simple (guess :: rest) guess
         (Master.calculateMatches secret guess))
    by_cases hterm : Master.calculateMatches secret guess = guess.length
    · rw [if_pos hterm]; exact hmem
    · rw [if_neg hterm]; exact secret_mem_filter_candidates_simple _ _ _ hmem

theorem optimized_round_preserves (secret : Word) (candidates : List Word)
    (hmem : secret ∈ candidates) : secret ∈ optimized_round secret candidates := by
  cases candidates with
  | nil => cases hmem
  | cons first rest =>
    set guess :=
      if (first :: rest).length ≤ 3 then first
      else pick_informative_word (first :: rest) with hguessdef
    show secret ∈
      (if Master.calculateMatches secret guess = guess.length then first :: rest
       else filter_candidates_excluding (first :: rest) guess
         (Master.calculateMatches secret guess))
    by_cases hterm : Master.calculateMatches secret guess = guess.length
    · rw [if_pos hterm]; exact hmem
    · rw [if_neg hterm]; exact secret_mem_filter_candidates_excluding _ _ _ hmem hterm

theorem minimax_round_preserves (secret : Word) (candidates : List Word)
    (hmem : secret ∈ candidates) : secret ∈ minimax_round secret candidates := by
  cases candidates with
  | nil => cases hmem
  | cons first rest =>
    by_cases h1 : (first :: rest).length = 1
    · show secret ∈
        (if (first :: rest).length = 1 then first :: rest
         else
           if Master.calculateMatches secret (minimax_select (first :: rest)) =
               (minimax_select (first :: rest)).length then
             first :: rest
           else
             filter_candidates_excluding (first :: rest) (minimax_select (first :: rest))
               (Master.calculateMatches secret (minimax_select (first :: rest))))
      rw [if_pos h1]; exact hmem
    · show secret ∈
        (if (first :: rest).length = 1 then first :: rest
         else
           if Master.calculateMatches secret (minimax_select (first :: rest)) =
               (minimax_select (first :: rest)).length then
             first :: rest
           else
             filter_candidates_excluding (first :: rest) (minimax_select (first :: rest))
               (Master.calculateMatches secret (minimax_select (first :: rest))))
      rw [if_neg h1]
      by_cases hterm : Master.calculateMatches secret (minimax_select (first :: rest)) =
          (minimax_select (first :: rest)).length
      · rw [if_pos hterm]; exact hmem
      · rw [if_neg hterm]; exact secret_mem_filter_candidates_excluding _ _ _ hmem hterm

theorem solver_round_preserves (strategy : String) (secret : Word) (candidates : List Word)
    (hmem : secret ∈ candidates) : secret ∈ solver_round strategy secret candidates := by
  unfold solver_round
  split
  · exact simple_round_preserves secret candidates hmem
  · exact optimized_round_preserves secret candidates hmem
  · exact minimax_round_preserves secret candidates hmem
  · exact optimized_round_preserves secret candidates hmem

/-! ## The minimax scan computes the earliest worst-case minimizer -/

theorem foldl_max_init_le (f : Word → Nat) :
    ∀ (l : List Word) (a : Nat), a ≤ l.foldl (fun w x => max w (f x)) a := by
  intro l
  induction l with
  | nil => intro a; exact le_refl a
  | cons y ys ih =>
    intro a
    rw [List.foldl_cons]
    exact le_trans (Nat.le_max_left a (f y)) (ih (max a (f y)))

theorem le_foldl_max (f : Word → Nat) :
    ∀ (l : List Word) (a : Nat) (x : Word), x ∈ l →
      f x ≤ l.foldl (fun w x => max w (f x)) a := by
  intro l
  induction l with
  | nil => intro a x hx; cases hx
  | cons y ys ih =>
    intro a x hx
    rw [List.foldl_cons]
    cases hx with
    | head => exact le_trans (Nat.le_max_right a _) (foldl_max_init_le f ys _)
    | tail _ h => exact ih _ x h

theorem foldl_max_le (f : Word → Nat) (B : Nat) :
    ∀ (l : List Word) (a : Nat), a ≤ B → (∀ x ∈ l, f x ≤ B) →
      l.foldl (fun w x => max w (f x)) a ≤ B := by
  intro l
  induction l with
  | nil => intro a ha _; exact ha
  | cons y ys ih =>
    intro a ha hf
    rw [List.foldl_cons]
    apply ih
    · exact Nat.max_le.2 ⟨ha, hf y (List.mem_cons_self _ _)⟩
    · intro x hx
      exact hf x (List.mem_cons_of_mem _ hx)

theorem worst_case_remaining_le (potential_guess : Word) (candidates : List Word) :
    worst_case_remaining potential_guess candidates ≤ candidates.length := by
  unfold worst_case_remaining
  exact foldl_max_le
    (fun remaining_word =>
      (candidates.filter (fun word =>
        calculate_matches potential_guess word ==
          calculate_matches potential_guess remaining_word)).length)
    candidates.length candidates 0 (Nat.zero_le _)
    (fun x _ => List.length_filter_le _ _)

theorem length_le_worst_case_remaining_nil (candidates : List Word) (h : candidates ≠ []) :
    candidates.length ≤ worst_case_remaining [] candidates := by
  obtain ⟨c, cs, rfl⟩ := List.exists_cons_of_ne_nil h
  unfold worst_case_remaining
  have hval : ((c :: cs).filter (fun word =>
      calculate_matches [] word == calculate_matches [] c)).length = (c :: cs).length := by
    have hcong : (c :: cs).filter
        (fun word => calculate_matches [] word == calculate_matches [] c) =
          (c :: cs).filter (fun _ => true) :=
      List.filter_congr (fun w _ => by simp [calculate_matches_nil_left])
    rw [hcong, List.filter_true]
  calc (c :: cs).length
      = ((c :: cs).filter (fun word =>
          calculate_matches [] word == calculate_matches [] c)).length := hval.symm
    _ ≤ _ :=
        le_foldl_max
          (fun remaining_word =>
            ((c :: cs).filter (fun word =>
              calculate_matches [] word ==
                calculate_matches [] remaining_word)).length)
          (c :: cs) 0 c (List.mem_cons_self _ _)

theorem earliest_min_by_cons (f : Word → Nat) (best x : Word) (xs : List Word) :
    earliest_min_by f best (x :: xs) =
      if f x < f best then earliest_min_by f x xs else earliest_min_by f best xs := rfl

theorem earliest_min_by_le_start (f : Word → Nat) :
    ∀ (l : List Word) (best : Word), f (earliest_min_by f best l) ≤ f best := by
  intro l
  induction l with
  | nil => intro best; exact le_refl _
  | cons x xs ih =>
    intro best
    rw [earliest_min_by_cons]
    by_cases h : f x < f best
    · rw [if_pos h]
      exact le_trans (ih x) (le_of_lt h)
    · rw [if_neg h]
      exact ih best

theorem earliest_min_by_mem_cons (f : Word → Nat) :
    ∀ (l : List Word) (best : Word), earliest_min_by f best l ∈ best :: l := by
  intro l
  induction l with
  | nil => intro best; exact List.mem_cons_self _ _
  | cons x xs ih =>
    intro best
    rw [earliest_min_by_cons]
    by_cases h : f x < f best
    · rw [if_pos h]
      exact List.mem_cons_of_mem best (ih x)
    · rw [if_neg h]
      rcases List.mem_cons.1 (ih best) with heq | hmem
      · rw [heq]; exact List.mem_cons_self _ _
      · exact List.mem_cons_of_mem best (List.mem_cons_of_mem x hmem)

theorem earliest_min_by_le (f : Word → Nat) :
    ∀ (l : List Word) (best x : Word), x ∈ best :: l →
      f (earliest_min_by f best l) ≤ f x := by
  intro l
  induction l with
  | nil =>
    intro best x hx
    rcases List.mem_cons.1 hx with heq | hmem
    · rw [heq]; exact le_refl _
    · cases hmem
  | cons y ys ih =>
    intro best x hx
    rw [earliest_min_by_cons]
    by_cases h : f y < f best
    · rw [if_pos h]
      rcases List.mem_cons.1 hx with heq | hmem
      · rw [heq]
        exact le_trans (earliest_min_by_le_start f ys y) (le_of_lt h)
      · exact ih y x hmem
    · rw [if_neg h]
      rcases List.mem_cons.1 hx with heq | hmem
      · rw [heq]; exact earliest_min_by_le_start f ys best
      · rcases List.mem_cons.1 hmem with heq' | hmem'
        · rw [heq']
          exact le_trans (ih best best (List.mem_cons_self _ _)) (not_lt.1 h)
        · exact ih best x (List.mem_cons_of_mem best hmem')

theorem minimax_fold_some_eq (f : Word → Nat) :
    ∀ (l : List Word) (g : Word),
      l.foldl (fun acc x => if f x < acc.2 then (some x, f x) else acc) (some g, f g) =
        (some (earliest_min_by f g l), f (earliest_min_by f g l)) := by
  intro l
  induction l with
  | nil => intro g; rfl
  | cons x xs ih =>
    intro g
    rw [List.foldl_cons, earliest_min_by_cons]
    by_cases h : f x < f g
    · rw [if_pos h, if_pos h]
      exact ih x
    · rw [if_neg h, if_neg h]
      exact ih g

theorem minimax_fold_none_eq (f : Word → Nat) (C : Nat) :
    ∀ (l : List Word) (h : Word), f h = C → (∀ x ∈ l, f x ≤ C) →
      (l.foldl (fun acc x => if f x < acc.2 then (some x, f x) else acc)
          ((none : Option Word), C) = ((none : Option Word), C) ∧
        earliest_min_by f h l = h) ∨
      (∃ r, l.foldl (fun acc x => if f x < acc.2 then (some x, f x) else acc)
          ((none : Option Word), C) = (some r, f r) ∧ f r < C ∧
        r = earliest_min_by f h l) := by
  intro l
  induction l with
  | nil => intro h _ _; exact Or.inl ⟨rfl, rfl⟩
  | cons x xs ih =>
    intro h hf hbound
    rw [List.foldl_cons, earliest_min_by_cons]
    by_cases hx : f x < C
    · rw [if_pos (show f x < (((none : Option Word), C)).2 from hx),
        if_pos (show f x < f h from hf ▸ hx)]
      refine Or.inr ⟨earliest_min_by f x xs, ?_, ?_, rfl⟩
      · exact minimax_fold_some_eq f xs x
      · exact lt_of_le_of_lt (earliest_min_by_le_start f xs x) hx
    · rw [if_neg (show ¬f x < (((none : Option Word), C)).2 from hx),
        if_neg (show ¬f x < f h from hf ▸ hx)]
      exact ih h hf (fun y hy => hbound y (List.mem_cons_of_mem _ hy))

/-- A best guess recorded by the minimax scan always has a worst case
strictly below the pool size, so it is never the empty (falsy) word. -/
theorem minimax_best_some_not_nil (candidates : List Word) (g : Word)
    (h : candidates ≠ []) (hsome : (minimax_best candidates).1 = some g)
    (hval : (minimax_best candidates).2 = worst_case_remaining g candidates)
    (hlt : worst_case_remaining g candidates < candidates.length) : g ≠ [] := by
  intro hnil
  subst hnil
  exact absurd hlt (not_lt.2 (length_le_worst_case_remaining_nil candidates h))

theorem minimax_select_eq_spec_pick (candidates : List Word) (h2 : 2 ≤ candidates.length) :
    minimax_select candidates = minimax_spec_pick candidates := by
  obtain ⟨first, rest, rfl⟩ : ∃ first rest, candidates = first :: rest := by
    cases candidates with
    | nil => simp at h2
    | cons a l => exact ⟨a, l, rfl⟩
  have hpos : 0 < min 10 (first :: rest).length := Nat.lt_min.2 ⟨by norm_num, by simp⟩
  have htake : (first :: rest).take (min 10 (first :: rest).length) =
      first :: rest.take (min 10 (first :: rest).length - 1) := List.take_cons hpos
  have hspec : minimax_spec_pick (first :: rest) =
      earliest_min_by (fun g => worst_case_remaining g (first :: rest)) first
        (rest.take (min 10 (first :: rest).length - 1)) := by
    unfold minimax_spec_pick
    rw [htake]
  by_cases hx : worst_case_remaining first (first :: rest) < (first :: rest).length
  · have hB := minimax_fold_some_eq
      (fun g => worst_case_remaining g (first :: rest))
      (rest.take (min 10 (first :: rest).length - 1)) first
    simp only [] at hB
    have hbest : minimax_best (first :: rest) =
        (some (earliest_min_by (fun g => worst_case_remaining g (first :: rest)) first
            (rest.take (min 10 (first :: rest).length - 1))),
          worst_case_remaining
            (earliest_min_by (fun g => worst_case_remaining g (first :: rest)) first
              (rest.take (min 10 (first :: rest).length - 1))) (first :: rest)) := by
      unfold minimax_best
      rw [htake, List.foldl_cons,
        if_pos (show worst_case_remaining first (first :: rest) <
          (((none : Option Word), (first :: rest).length)).2 from hx)]
      exact hB
    have h1 : (minimax_best (first :: rest)).1 =
        some (earliest_min_by (fun g => worst_case_remaining g (first :: rest)) first
          (rest.take (min 10 (first :: rest).length - 1))) := by
      rw [hbest]
    have hlt : worst_case_remaining
        (earliest_min_by (fun g => worst_case_remaining g (first :: rest)) first
          (rest.take (min 10 (first :: rest).length - 1))) (first :: rest) <
        (first :: rest).length :=
      lt_of_le_of_lt
        (earliest_min_by_le_start (fun g => worst_case_remaining g (first :: rest)) _ first) hx
    have hne : earliest_min_by (fun g => worst_case_remaining g (first :: rest)) first
        (rest.take (min 10 (first :: rest).length - 1)) ≠ [] := by
      intro hnil
      rw [hnil] at hlt
      exact absurd hlt (not_lt.2 (length_le_worst_case_remaining_nil _ (by simp)))
    unfold minimax_select
    rw [h1]
    show (if (earliest_min_by (fun g => worst_case_remaining g (first :: rest)) first
        (rest.take (min 10 (first :: rest).length - 1))).isEmpty = true then
          (first :: rest).headD []
        else earliest_min_by (fun g => worst_case_remaining g (first :: rest)) first
          (rest.take (min 10 (first :: rest).length - 1))) = minimax_spec_pick (first :: rest)
    rw [if_neg (by rw [List.isEmpty_eq_false.2 hne]; exact Bool.false_ne_true)]
    exact hspec.symm
  · have hfC : worst_case_remaining first (first :: rest) = (first :: rest).length :=
      le_antisymm (worst_case_remaining_le first (first :: rest)) (not_lt.1 hx)
    have hD := minimax_fold_none_eq
      (fun g => worst_case_remaining g (first :: rest)) (first :: rest).length
      (rest.take (min 10 (first :: rest).length - 1)) first hfC
      (fun x _ => worst_case_remaining_le x (first :: rest))
    simp only [] at hD
    rcases hD with ⟨hfold, hemb⟩ | ⟨r, hfold, hrlt, hre⟩
    · have hbest : minimax_best (first :: rest) =
          ((none : Option Word), (first :: rest).length) := by
        unfold minimax_best
        rw [htake, List.foldl_cons,
          if_neg (show ¬worst_case_remaining first (first :: rest) <
            (((none : Option Word), (first :: rest).length)).2 from hx)]
        exact hfold
      have h1 : (minimax_best (first :: rest)).1 = (none : Option Word) := by rw [hbest]
      unfold minimax_select
      rw [h1]
      show (first :: rest).headD [] = minimax_spec_pick (first :: rest)
      rw [hspec, hemb]
      rfl
    · have hbest : minimax_best (first :: rest) =
          (some r, worst_case_remaining r (first :: rest)) := by
        unfold minimax_best
        rw [htake, List.foldl_cons,
          if_neg (show ¬worst_case_remaining first (first :: rest) <
            (((none : Option Word), (first :: rest).length)).2 from hx)]
        exact hfold
      have h1 : (minimax_best (first :: rest)).1 = some r := by rw [hbest]
      have hne : r ≠ [] := by
        intro hnil
        rw [hnil] at hrlt
        exact absurd hrlt (not_lt.2 (length_le_worst_case_remaining_nil _ (by simp)))
      unfold minimax_select
      rw [h1]
      show (if r.isEmpty = true then (first :: rest).headD [] else r) =
        minimax_spec_pick (first :: rest)
      rw [if_neg (by rw [List.isEmpty_eq_false.2 hne]; exact Bool.false_ne_true)]
      rw [hspec, ← hre]

theorem minimax_spec_pick_restricted (candidates : List Word) (h2 : 2 ≤ candidates.length) :
    minimax_spec_pick candidates ∈ candidates.take (min 10 candidates.length) ∧
      ∀ x ∈ candidates.take (min 10 candidates.length),
        worst_case_remaining (minimax_spec_pick candidates) candidates ≤
          worst_case_remaining x candidates := by
  obtain ⟨first, rest, rfl⟩ : ∃ first rest, candidates = first :: rest := by
    cases candidates with
    | nil => simp at h2
    | cons a l => exact ⟨a, l, rfl⟩
  have hpos : 0 < min 10 (first :: rest).length := Nat.lt_min.2 ⟨by norm_num, by simp⟩
  have htake : (first :: rest).take (min 10 (first :: rest).length) =
      first :: rest.take (min 10 (first :: rest).length - 1) := List.take_cons hpos
  have hspec : minimax_spec_pick (first :: rest) =
      earliest_min_by (fun g => worst_case_remaining g (first :: rest)) first
        (rest.take (min 10 (first :: rest).length - 1)) := by
    unfold minimax_spec_pick
    rw [htake]
  rw [hspec, htake]
  exact ⟨earliest_min_by_mem_cons (fun g => worst_case_remaining g (first :: rest)) _ first,
    fun x hx => earliest_min_by_le (fun g => worst_case_remaining g (first :: rest)) _ first x hx⟩

/-! ## The claims -/

/-- C1: For every strategy (simple/naive, optimized/heuristic, minimax —
and any other strategy string, which dispatches to the optimized solver)
and every list of equal-length words containing the secret,
`findSecretWord(words, Master(secret), strategy)` returns the secret
word; code.py's `findSecretWord` does too. -/
theorem C1_solve_returns_secret (strategy : String) (words : List Word) (secret : Word)
    (hmem : secret ∈ words) (hlens : ∀ w ∈ words, w.length = secret.length) :
    (∃ qs, findSecretWord words secret strategy = .found secret qs) ∧
      findSecretWord_py words secret = some secret := by
  constructor
  · unfold findSecretWord
    split
    · exact find_secret_word_simple_finds secret words.length words [] hmem (le_refl _) hlens
    · exact find_secret_word_optimized_finds secret words.length words [] hmem (le_refl _) hlens
    · exact find_secret_word_minimax_finds secret words.length words [] hmem (le_refl _) hlens
    · exact find_secret_word_optimized_finds secret words.length words [] hmem (le_refl _) hlens
  · exact findSecretWord_py_loop_finds secret words.length words hmem (le_refl _) hlens

/-- C1 witness: the spec's concrete scenario, run with the minimax
strategy. -/
theorem C1_solve_returns_secret_witness :
    (∃ qs, findSecretWord
        ["acckzz".toList, "ccbazz".toList, "eiowzz".toList, "abcczz".toList]
        "acckzz".toList "minimax" = .found "acckzz".toList qs) ∧
      findSecretWord_py
        ["acckzz".toList, "ccbazz".toList, "eiowzz".toList, "abcczz".toList]
        "acckzz".toList = some "acckzz".toList :=
  C1_solve_returns_secret "minimax"
    ["acckzz".toList, "ccbazz".toList, "eiowzz".toList, "abcczz".toList]
    "acckzz".toList (by decide) (by decide)

/-- C2: for every strategy and every pool containing the secret, the
secret is still in the pool after every filtering round of the solver
loop: filtering never expels the true secret. -/
theorem C2_secret_survives_every_round (strategy : String) (secret : Word)
    (pool : List Word) (n : Nat) (hmem : secret ∈ pool) :
    secret ∈ (solver_round strategy secret)^[n] pool := by
  induction n generalizing pool with
  | zero => exact hmem
  | succ n ih =>
    rw [Function.iterate_succ_apply]
    exact ih _ (solver_round_preserves strategy secret pool hmem)

/-- C2 witness: the secret "ab" survives three minimax rounds of a pool
that contains it. -/
theorem C2_secret_survives_every_round_witness :
    "ab".toList ∈ (solver_round "minimax" "ab".toList)^[3] ["cd".toList, "ab".toList] :=
  C2_secret_survives_every_round "minimax" "ab".toList ["cd".toList, "ab".toList] 3 (by decide)

/-- C3 counterexample: with the secret "xyz" absent from the pool
["abc", "def"], the minimax strategy does not fail with the
ExhaustedCandidates error: after querying "abc" the pool shrinks to the
singleton ["def"], which the minimax loop returns directly, so the run
ends `found "def"` — a wrong word, and not the claimed failure. -/
theorem C3_minimax_counterexample :
    findSecretWord ["abc".toList, "def".toList] "xyz".toList "minimax" =
        .found "def".toList ["abc".toList] ∧
      (findSecretWord ["abc".toList, "def".toList] "xyz".toList "minimax").isExhausted =
        false := by
  constructor
  · rfl
  · rfl

/-- C3 (amended): for the simple and optimized strategies (and any
unknown strategy string, which dispatches to the optimized solver), when
the secret is absent from an equal-length pool the pool empties before a
full-length match and the solver fails with the single error kind
ExhaustedCandidates (the `ValueError`); the minimax strategy is the
exception, since it returns a remaining singleton pool unverified. -/
theorem C3_amended_exhaustion (words : List Word) (secret : Word) (strategy : String)
    (habsent : secret ∉ words) (hlens : ∀ w ∈ words, w.length = secret.length)
    (hstrat : strategy ≠ "minimax") :
    ∃ qs, findSecretWord words secret strategy = .exhausted qs := by
  unfold findSecretWord
  split
  · exact find_secret_word_simple_exhausts secret words.length words [] habsent
      (le_refl _) hlens
  · exact find_secret_word_optimized_exhausts secret words.length words [] habsent
      (le_refl _) hlens
  · exact absurd rfl hstrat
  · exact find_secret_word_optimized_exhausts secret words.length words [] habsent
      (le_refl _) hlens

/-- C3 witness: the spec's failure scenario under the simple strategy. -/
theorem C3_amended_exhaustion_witness :
    ∃ qs, findSecretWord ["abc".toList, "def".toList] "xyz".toList "simple" =
      .exhausted qs :=
  C3_amended_exhaustion ["abc".toList, "def".toList] "xyz".toList "simple"
    (by decide) (by decide) (by decide)

/-- C4 counterexample: the optimized/minimax filtering step does
special-case `w == guess`.  With pool ["ab", "cd"], guess "ab" and
observed score 2 (the full word length), the guess scores exactly the
observed count yet is not retained. -/
theorem C4_filter_counterexample :
    calculate_matches "ab".toList "ab".toList = ("ab".toList).length ∧
      "ab".toList ∈ ["ab".toList, "cd".toList] ∧
      "ab".toList ∉ filter_candidates_excluding ["ab".toList, "cd".toList] "ab".toList 2 ∧
      filter_candidates_excluding ["ab".toList, "cd".toList] "ab".toList 2 = [] := by
  refine ⟨rfl, by decide, by decide, rfl⟩

/-- C4 (amended): the simple strategy's filter (shared with code.py)
retains exactly the words scoring the observed count against the guess,
in input order and with no special case for the guess itself — in
particular the guess is retained whenever the observed score is the full
word length; the optimized and minimax strategies' filter additionally
requires `word != guess`, so it retains exactly the score-consistent
words other than the guess, in input order, and never the guess. -/
theorem C4_amended_filter_semantics (pool : List Word) (guess : Word) (m : Nat) :
    (∀ w, w ∈ filter_candidates_simple pool guess m ↔
      w ∈ pool ∧ calculate_matches guess w = m) ∧
    List.Sublist (filter_candidates_simple pool guess m) pool ∧
    (m = guess.length → guess ∈ pool → guess ∈ filter_candidates_simple pool guess m) ∧
    (∀ w, w ∈ filter_candidates_excluding pool guess m ↔
      w ∈ pool ∧ w ≠ guess ∧ calculate_matches guess w = m) ∧
    List.Sublist (filter_candidates_excluding pool guess m) pool ∧
    guess ∉ filter_candidates_excluding pool guess m := by
  refine ⟨fun w => mem_filter_candidates_simple pool guess w m,
    filter_candidates_simple_sublist pool guess m, ?_,
    fun w => mem_filter_candidates_excluding pool guess w m,
    filter_candidates_excluding_sublist pool guess m, ?_⟩
  · intro hm hmem
    rw [mem_filter_candidates_simple]
    exact ⟨hmem, by rw [calculate_matches_self, hm]⟩
  · intro hmem
    exact absurd rfl ((mem_filter_candidates_excluding pool guess guess m).1 hmem).2.1

/-- C4 witness: both filters at the counterexample input — the simple
filter keeps the full-scoring guess, the excluding filter drops it. -/
theorem C4_amended_filter_semantics_witness :
    "ab".toList ∈ filter_candidates_simple ["ab".toList, "cd".toList] "ab".toList 2 ∧
      "ab".toList ∉ filter_candidates_excluding ["ab".toList, "cd".toList] "ab".toList 2 :=
  ⟨(C4_amended_filter_semantics ["ab".toList, "cd".toList] "ab".toList 2).2.2.1
      (by decide) (by decide),
    (C4_amended_filter_semantics ["ab".toList, "cd".toList] "ab".toList 2).2.2.2.2.2⟩

/-- C5: the minimax strategy returns a singleton pool's element directly
without issuing an oracle query (the recorded query list is unchanged);
on a pool of two or more it selects exactly the spec's pick — the
candidate among the first min(10, |pool|) that minimizes the worst-case
surviving sub-pool size over all induced match counts, earliest first on
ties — and that pick indeed lies in the restricted set and minimizes the
worst case over it. -/
theorem C5_minimax_selection (secret w : Word) (qs : List Word) (fuel : Nat)
    (candidates : List Word) (h2 : 2 ≤ candidates.length) :
    find_secret_word_minimax secret (fuel + 1) [w] qs = .found w qs ∧
      minimax_select candidates = minimax_spec_pick candidates ∧
      minimax_spec_pick candidates ∈ candidates.take (min 10 candidates.length) ∧
      ∀ x ∈ candidates.take (min 10 candidates.length),
        worst_case_remaining (minimax_spec_pick candidates) candidates ≤
          worst_case_remaining x candidates :=
  ⟨find_secret_word_minimax_singleton secret w qs fuel,
    minimax_select_eq_spec_pick candidates h2,
    (minimax_spec_pick_restricted candidates h2).1,
    (minimax_spec_pick_restricted candidates h2).2⟩

/-- C5 witness: a singleton pool is answered without a query, and on the
spec's five-word fixture the minimax scan picks "fedcba", the earliest
worst-case minimizer. -/
theorem C5_minimax_selection_witness :
    find_secret_word_minimax "ab".toList (0 + 1) ["ab".toList] ["cd".toList] =
        .found "ab".toList ["cd".toList] ∧
      minimax_select
          ["abcdef".toList, "fedcba".toList, "bcdefa".toList, "abcxyz".toList,
            "xydefz".toList] =
        minimax_spec_pick
          ["abcdef".toList, "fedcba".toList, "bcdefa".toList, "abcxyz".toList,
            "xydefz".toList] ∧
      minimax_spec_pick
          ["abcdef".toList, "fedcba".toList, "bcdefa".toList, "abcxyz".toList,
            "xydefz".toList] ∈
        (["abcdef".toList, "fedcba".toList, "bcdefa".toList, "abcxyz".toList,
          "xydefz".toList] : List Word).take
          (min 10
            (["abcdef".toList, "fedcba".toList, "bcdefa".toList, "abcxyz".toList,
              "xydefz".toList] : List Word).length) ∧
      ∀ x ∈ (["abcdef".toList, "fedcba".toList, "bcdefa".toList, "abcxyz".toList,
          "xydefz".toList] : List Word).take
          (min 10
            (["abcdef".toList, "fedcba".toList, "bcdefa".toList, "abcxyz".toList,
              "xydefz".toList] : List Word).length),
        worst_case_remaining
            (minimax_spec_pick
              ["abcdef".toList, "fedcba".toList, "bcdefa".toList, "abcxyz".toList,
                "xydefz".toList])
            ["abcdef".toList, "fedcba".toList, "bcdefa".toList, "abcxyz".toList,
              "xydefz".toList] ≤
          worst_case_remaining x
            ["abcdef".toList, "fedcba".toList, "bcdefa".toList, "abcxyz".toList,
              "xydefz".toList] :=
  C5_minimax_selection "ab".toList "ab".toList ["cd".toList] 0
    ["abcdef".toList, "fedcba".toList, "bcdefa".toList, "abcxyz".toList, "xydefz".toList]
    (by decide)

/-- C6: for every strategy, every pool and every secret, the solver
terminates (the fuel `|initialPool|` the entry point supplies is never
exhausted) and issues at most `|initialPool|` oracle queries — each
non-terminal round strictly shrinks the pool, at least by the just-tried
guess. -/
theorem C6_terminates_within_pool_size (strategy : String) (words : List Word)
    (secret : Word) :
    ∃ qs, (findSecretWord words secret strategy).queries = some qs ∧
      qs.length ≤ words.length := by
  unfold findSecretWord
  split
  · obtain ⟨qs, h1, h2⟩ :=
      find_secret_word_simple_queries secret words.length words [] (le_refl _)
    exact ⟨qs, h1, by simpa using h2⟩
  · obtain ⟨qs, h1, h2⟩ :=
      find_secret_word_optimized_queries secret words.length words [] (le_refl _)
    exact ⟨qs, h1, by simpa using h2⟩
  · obtain ⟨qs, h1, h2⟩ :=
      find_secret_word_minimax_queries secret words.length words [] (le_refl _)
    exact ⟨qs, h1, by simpa using h2⟩
  · obtain ⟨qs, h1, h2⟩ :=
      find_secret_word_optimized_queries secret words.length words [] (le_refl _)
    exact ⟨qs, h1, by simpa using h2⟩

/-- C7: the heuristic strategy's `pick_informative_word` picks the first
element whenever the pool has at most 3 elements, and otherwise the
first element for even pool sizes and the element at index
`len(pool) // 2` for odd pool sizes. -/
theorem C7_heuristic_selection (pool : List Word) (h : pool ≠ []) :
    (pool.length ≤ 3 → pool.get? 0 = some (pick_informative_word pool)) ∧
      (3 < pool.length → pool.length % 2 = 0 →
        pool.get? 0 = some (pick_informative_word pool)) ∧
      (3 < pool.length → pool.length % 2 = 1 →
        pool.get? (pool.length / 2) = some (pick_informative_word pool)) := by
  obtain ⟨x, xs, rfl⟩ : ∃ x xs, pool = x :: xs := by
    cases pool with
    | nil => exact absurd rfl h
    | cons a l => exact ⟨a, l, rfl⟩
  have hpos : 0 < (x :: xs).length := by simp
  refine ⟨?_, ?_, ?_⟩
  · intro h3
    unfold pick_informative_word
    rw [if_pos h3]
    rfl
  · intro h3 he
    unfold pick_informative_word
    rw [if_neg (not_le.2 h3), if_pos he]
    rfl
  · intro h3 ho
    unfold pick_informative_word
    rw [if_neg (not_le.2 h3), if_neg (by omega)]
    have hlt : (x :: xs).length / 2 < (x :: xs).length := Nat.div_lt_self hpos one_lt_two
    rw [List.getD_eq_get?, List.get?_eq_get hlt, Option.getD_some]

/-- C7 witness: a five-element pool (odd, above 3) yields the element at
index 5 // 2 = 2. -/
theorem C7_heuristic_selection_witness :
    (["aa".toList, "bb".toList, "cc".toList, "dd".toList, "ee".toList] : List Word).get?
        ((["aa".toList, "bb".toList, "cc".toList, "dd".toList, "ee".toList] :
          List Word).length / 2) =
      some (pick_informative_word
        ["aa".toList, "bb".toList, "cc".toList, "dd".toList, "ee".toList]) :=
  (C7_heuristic_selection
      ["aa".toList, "bb".toList, "cc".toList, "dd".toList, "ee".toList]
      (by decide)).2.2 (by decide) (by decide)

/-- C8 counterexample: calling the entry point with its default strategy
is not the minimax strategy.  On the spec's five-word fixture the default
run queries "bcdefa" first (the heuristic's middle pick) while the
minimax run queries "fedcba" first, so the two runs differ. -/
theorem C8_default_counterexample :
    findSecretWord_default
        ["abcdef".toList, "fedcba".toList, "bcdefa".toList, "abcxyz".toList,
          "xydefz".toList] "abcdef".toList =
      .found "abcdef".toList ["bcdefa".toList, "abcdef".toList] ∧
    findSecretWord
        ["abcdef".toList, "fedcba".toList, "bcdefa".toList, "abcxyz".toList,
          "xydefz".toList] "abcdef".toList "minimax" =
      .found "abcdef".toList ["fedcba".toList, "abcdef".toList] ∧
    findSecretWord_default
        ["abcdef".toList, "fedcba".toList, "bcdefa".toList, "abcxyz".toList,
          "xydefz".toList] "abcdef".toList ≠
      findSecretWord
        ["abcdef".toList, "fedcba".toList, "bcdefa".toList, "abcxyz".toList,
          "xydefz".toList] "abcdef".toList "minimax" := by
  refine ⟨rfl, rfl, by decide⟩

/-- C8 (amended): when the entry point is called without specifying a
strategy, the Python default parameter value "optimized" applies, so it
runs the optimized (heuristic) strategy, not minimax. -/
theorem C8_amended_default_is_optimized (words : List Word) (secret : Word) :
    findSecretWord_default words secret = findSecretWord words secret "optimized" ∧
      findSecretWord_default words secret =
        find_secret_word_optimized secret words.length words [] :=
  ⟨rfl, rfl⟩

/-- C9: for every word of the secret's length, `Master.guess` (both the
code.py version and the refactored cached version) returns the number of
index positions at which the word and the secret hold the same
character, and that value equals the word's length exactly when the word
is the secret — the solver's full-match termination signal identifies
the secret exactly. -/
theorem C9_oracle_counts_matching_positions (secret word : Word)
    (hlen : word.length = secret.length) :
    Master.guessPy secret word =
        ((List.range word.length).filter
          (fun i => word.get? i == secret.get? i)).length ∧
      Master.calculateMatches secret word =
        ((List.range word.length).filter
          (fun i => word.get? i == secret.get? i)).length ∧
      (Master.calculateMatches secret word = word.length ↔ word = secret) := by
  have hcount :
      ((List.range word.length).filter (fun i => word.get? i == secret.get? i)).length =
        calculate_matches word secret := by
    rw [← List.countP_eq_length_filter]
    exact range_countP_eq_calculate_matches word secret
  refine ⟨?_, ?_, Master.calculateMatches_full_iff secret word hlen⟩
  · rw [Master.guessPy_eq, Master.calculateMatches_eq, hcount]
  · rw [Master.calculateMatches_eq, hcount]

/-- C9 witness: the oracle with secret "abc" scores "abd" as 2, the
number of matching positions, and 2 is not the full length. -/
theorem C9_oracle_counts_matching_positions_witness :
    Master.guessPy "abc".toList "abd".toList =
        ((List.range ("abd".toList).length).filter
          (fun i => ("abd".toList).get? i == ("abc".toList).get? i)).length ∧
      Master.calculateMatches "abc".toList "abd".toList =
        ((List.range ("abd".toList).length).filter
          (fun i => ("abd".toList).get? i == ("abc".toList).get? i)).length ∧
      (Master.calculateMatches "abc".toList "abd".toList = ("abd".toList).length ↔
        "abd".toList = "abc".toList) :=
  C9_oracle_counts_matching_positions "abc".toList "abd".toList (by decide)

/-- C10: a strategy string other than "simple", "optimized" or "minimax"
makes the entry point silently fall back to the optimized (heuristic)
strategy — the `strategies.get` default — returning exactly what the
"optimized" strategy returns. -/
theorem C10_unknown_strategy_falls_back (words : List Word) (secret : Word)
    (strategy : String) (h1 : strategy ≠ "simple") (h2 : strategy ≠ "optimized")
    (h3 : strategy ≠ "minimax") :
    findSecretWord words secret strategy = findSecretWord words secret "optimized" := by
  have hopt : findSecretWord words secret "optimized" =
      find_secret_word_optimized secret words.length words [] := rfl
  rw [hopt]
  unfold findSecretWord
  split
  · exact absurd rfl h1
  · exact absurd rfl h2
  · exact absurd rfl h3
  · rfl

/-- C10 witness: the unknown strategy "entropy" behaves as
"optimized". -/
theorem C10_unknown_strategy_falls_back_witness :
    findSecretWord ["ab".toList, "cd".toList] "cd".toList "entropy" =
      findSecretWord ["ab".toList, "cd".toList] "cd".toList "optimized" :=
  C10_unknown_strategy_falls_back ["ab".toList, "cd".toList] "cd".toList "entropy"
    (by decide) (by decide) (by decide)
